import Mathlib

/-!
# Verification of the `arithmetic-interpreter` core

Shallow embedding of the repository's tokenizer (`src/tokenizer.rs`),
parser (`src/parser.rs`), evaluator (`src/runtime.rs`) and error
formatter (`src/main.rs`), together with theorems settling the frozen
claims about the natural-language specification.

Embedding conventions:
* A Rust `&str` input line is a `List Char`; byte offsets are computed
  with `Char.utf8Size`, exactly as the Rust `Cursor` adds `len_utf8()`.
* Rust `f64` numbers are modelled as `ℚ`.  Every numeric claim in the
  spec compares values that the decimal grammar produces exactly and
  that the arithmetic of the claims keeps exact, so the rational model
  and IEEE-754 doubles agree on all compared values.
* Fallible operations that can panic in Rust (string slicing at a
  non-character-boundary byte offset, `usize` underflow) return
  `Option`, with `none` marking the panic.
* The recursive descent (`pratt_parser`) and the token loop are given
  an explicit fuel argument so that they are structurally recursive;
  fuel `tokens.length + 1` (resp. `input.length + 1`) is proved
  sufficient, and exhaustion is modelled by an outer `none`.
-/

deriving instance DecidableEq for Except

namespace ArithInterp

/-! ## Byte lengths and byte slicing -/

/-- Total UTF-8 byte length of a character list (the Rust `str::len`). -/
def byteLen : List Char → Nat
  | [] => 0
  | c :: rest => c.utf8Size + byteLen rest

/-- Drops `n` bytes from the front of a character list.  Returns `none`
when `n` is not a character boundary or exceeds the total length,
which is exactly when Rust slicing `&s[n..]` panics. -/
def dropBytes (l : List Char) (n : Nat) : Option (List Char) :=
  if n = 0 then some l
  else
    match l with
    | [] => none
    | c :: rest => if c.utf8Size ≤ n then dropBytes rest (n - c.utf8Size) else none

/-- Takes `n` bytes from the front of a character list.  Returns `none`
when `n` is not a character boundary of the list or exceeds its length. -/
def takeBytes (l : List Char) (n : Nat) : Option (List Char) :=
  if n = 0 then some []
  else
    match l with
    | [] => none
    | c :: rest =>
      if c.utf8Size ≤ n then (takeBytes rest (n - c.utf8Size)).map (fun t => c :: t)
      else none

/-- The Rust byte slice `&s[start..stop]`; `none` models the slicing panic. -/
def sliceBytes (l : List Char) (start stop : Nat) : Option (List Char) :=
  if start ≤ stop then (dropBytes l start).bind (fun r => takeBytes r (stop - start))
  else none

/-! ## Character classes

`isUnicodeWhitespace` lists the Unicode `White_Space` code points, the
extension of Rust's `char::is_whitespace`.  `isXidContinue` models the
`unicode_xid` crate's `is_xid_continue` on the ASCII range (the claims
under verification are insensitive to its extension beyond ASCII: it is
only used to delimit the identifier following `?`). -/

/-- Unicode `White_Space` property, the extension of Rust `char::is_whitespace`. -/
def isUnicodeWhitespace (c : Char) : Bool :=
  (0x09 ≤ c.toNat && c.toNat ≤ 0x0D) || c.toNat = 0x20 || c.toNat = 0x85 ||
  c.toNat = 0xA0 || c.toNat = 0x1680 || (0x2000 ≤ c.toNat && c.toNat ≤ 0x200A) ||
  c.toNat = 0x2028 || c.toNat = 0x2029 || c.toNat = 0x202F || c.toNat = 0x205F ||
  c.toNat = 0x3000

/-- ASCII fragment of UAX#31 `XID_Continue` (`unicode_xid::is_xid_continue`). -/
def isXidContinue (c : Char) : Bool :=
  c.isAlphanum || c = '_'

/-! ## Decimal number parsing

Models `str::parse::<f64>()` on the strings the number rule of the
tokenizer can match: a digit run optionally followed by `.` and a digit
run.  Rust's float grammar accepts `Digits '.' Digits?`, `'.' Digits`
and `Digits` (plus sign/exponent/`inf`/`NaN` forms that contain
characters the number rule never consumes); any other string over
digits and dots is rejected, mirrored here by `none`.  The value is the
exact rational denoted by the decimal string. -/

/-- Value of an ASCII digit run. -/
def digitsVal (l : List Char) : Nat :=
  l.foldl (fun acc c => 10 * acc + (c.toNat - '0'.toNat)) 0

/-- The fragment of Rust `str::parse::<f64>` covering decimal strings
(digit run, optional dot, digit run); `none` on invalid float syntax. -/
def rustParseF64 (l : List Char) : Option ℚ :=
  let intPart := l.takeWhile Char.isDigit
  match l.dropWhile Char.isDigit with
  | [] => if intPart.isEmpty then none else some (digitsVal intPart : ℚ)
  | '.' :: fr =>
    let fracPart := fr.takeWhile Char.isDigit
    if (fr.dropWhile Char.isDigit).isEmpty then
      if intPart.isEmpty && fracPart.isEmpty then none
      else
        -- the exact value of `I.F` is `(I * 10 ^ |F| + F) / 10 ^ |F|`
        some (mkRat (digitsVal intPart * 10 ^ fracPart.length + digitsVal fracPart)
          (10 ^ fracPart.length))
    else none
  | _ => none

/-! ## Tokenizer (`src/tokenizer.rs`) -/

/-- A span that describes the byte position of a token in the source
input (`Span` in `tokenizer.rs`; the source field `end` is a Lean
keyword and is called `endPos` here). -/
structure Span where
  start : Nat
  endPos : Nat
deriving DecidableEq, Repr

/-- A token kind for special tokens (`SpecialKind`). -/
inductive SpecialKind where
  | Quit
  | Unrecognized
deriving DecidableEq, Repr

/-- A token kind for arithmetic operations (`OperationKind`). -/
inductive OperationKind where
  | Plus
  | Minus
  | Star
  | Slash
deriving DecidableEq, Repr

/-- The kind of the tokens (`TokenKind`); `f64` payloads are `ℚ`. -/
inductive TokenKind where
  | Whitespace
  | Special (kind : SpecialKind)
  | Number (num : ℚ)
  | Operation (kind : OperationKind)
  | OpenParenthesis
  | CloseParenthesis
  | Unrecognized
deriving DecidableEq, Repr

/-- Data structure for the tokens (`Token`). -/
structure Token where
  kind : TokenKind
  span : Span
deriving DecidableEq, Repr

/-- A cursor over the input characters (`Cursor`): the remaining
character iterator and the current byte position. -/
structure Cursor where
  chars : List Char
  bytePos : Nat
deriving DecidableEq, Repr

/-- `Cursor::skip_while`: advances while the predicate holds.  The
source advances one character at a time, adding each character's
`len_utf8()`; cumulatively that drops the matching run and adds its
byte length. -/
def skipWhileCursor (p : Char → Bool) (c : Cursor) : Cursor :=
  { chars := c.chars.dropWhile p
    bytePos := c.bytePos + byteLen (c.chars.takeWhile p) }

/-- `Tokenizer::number`, started on the cursor after the leading digit:
skips the digit run, then if a `.` follows consumes it and a second
digit run.  Also returns the consumed characters, which are what the
source's slice `input[start..byte_pos]` (minus the leading digit)
recovers via byte positions. -/
def numberCursor (c : Cursor) : List Char × Cursor :=
  let ds := c.chars.takeWhile Char.isDigit
  let c1 := skipWhileCursor Char.isDigit c
  match c1.chars with
  | '.' :: r2 =>
    let c2 : Cursor := { chars := r2, bytePos := c1.bytePos + '.'.utf8Size }
    let fs := r2.takeWhile Char.isDigit
    let c3 := skipWhileCursor Char.isDigit c2
    (ds ++ '.' :: fs, c3)
  | _ => (ds, c1)

/-- The `match` over the first character in `Tokenizer::next_token`:
classifies the token and advances the cursor past it.  `ch` is the
already-consumed first character and `c1` the cursor just after it.
The identifier and number slices of the source (`input[start+1..]`,
`input[start..]`) are exactly the runs the cursor consumed, used here
directly.  The source unwraps the float parse; the model uses `getD 0`, and a
theorem below proves the parse never fails on the matched run. -/
def nextTokenKind (ch : Char) (c1 : Cursor) : TokenKind × Cursor :=
  if isUnicodeWhitespace ch then
    (.Whitespace, skipWhileCursor isUnicodeWhitespace c1)
  else if ch = '?' then
    let identifier := c1.chars.takeWhile isXidContinue
    (if identifier = ("quit".toList) then .Special .Quit else .Special .Unrecognized,
      skipWhileCursor isXidContinue c1)
  else if ch.isDigit then
    let (run, c2) := numberCursor c1
    (.Number ((rustParseF64 (ch :: run)).getD 0), c2)
  else if ch = '+' then (.Operation .Plus, c1)
  else if ch = '-' then (.Operation .Minus, c1)
  else if ch = '*' then (.Operation .Star, c1)
  else if ch = '/' then (.Operation .Slash, c1)
  else if ch = '(' then (.OpenParenthesis, c1)
  else if ch = ')' then (.CloseParenthesis, c1)
  else (.Unrecognized, c1)

/-- `Tokenizer::next_token`: consumes one token, recording its span from
the byte position before to the byte position after. -/
def nextToken (c : Cursor) : Option (Token × Cursor) :=
  let start := c.bytePos
  match c.chars with
  | [] => none
  | ch :: rest =>
    let c1 : Cursor := { chars := rest, bytePos := c.bytePos + ch.utf8Size }
    let (kind, c2) := nextTokenKind ch c1
    some ({ kind := kind, span := { start := start, endPos := c2.bytePos } }, c2)

/-- Iterated `next_token` (the `std::iter::from_fn` loop of
`Tokenizer::tokenize`), with fuel for structural recursion.  Every
produced token consumes at least one character, so fuel
`input.length + 1` never runs out (`tokenizeFuel_stable`). -/
def tokenizeFuel : Nat → Cursor → List Token
  | 0, _ => []
  | fuel + 1, c =>
    match nextToken c with
    | none => []
    | some (t, c') => t :: tokenizeFuel fuel c'

/-- `Tokenizer::tokenize`: the token sequence with whitespace filtered out. -/
def tokenize (input : List Char) : List Token :=
  (tokenizeFuel (input.length + 1) { chars := input, bytePos := 0 }).filter
    (fun t => match t.kind with | .Whitespace => false | _ => true)

/-! ## Parser (`src/parser.rs`) -/

/-- Binary operation (`BinaryOperation`). -/
inductive BinaryOperation where
  | Addition
  | Subtraction
  | Multiplication
  | Division
deriving DecidableEq, Repr

/-- Unary operation (`UnaryOperation`). -/
inductive UnaryOperation where
  | Negation
deriving DecidableEq, Repr

/-- Arithmetic expression, the root of the syntax tree (`Expression`). -/
inductive Expression where
  | Binary (operation : BinaryOperation) (lhs rhs : Expression)
  | Unary (operation : UnaryOperation) (operand : Expression)
  | Atom (num : ℚ)
deriving DecidableEq, Repr

/-- Top-level result of parsing one line (`ParseTree`). -/
inductive ParseTree where
  | Expression (expr : Expression)
  | Quit
  | Empty
deriving DecidableEq, Repr

/-- An error caught by the parser (`ParserError`); the span is absent
when the error occurs at end of input. -/
inductive ParserError where
  | UnrecognizedSpecial (span : Option Span)
  | ExpectedBinaryOp (span : Option Span)
  | ExpectedExprStart (span : Option Span)
  | UnclosedParenthesis (span : Option Span)
deriving DecidableEq, Repr

/-- `Parser::prefix_binding_power`. -/
def prefixBindingPower : UnaryOperation → Nat
  | .Negation => 5

/-- `Parser::infix_binding_power`. -/
def infixBindingPower : BinaryOperation → Nat × Nat
  | .Addition | .Subtraction => (1, 2)
  | .Multiplication | .Division => (3, 4)

/-- The token-to-operation mapping of the infix loop in `Parser::pratt_parser`. -/
def toBinaryOperation : OperationKind → BinaryOperation
  | .Plus => .Addition
  | .Minus => .Subtraction
  | .Star => .Multiplication
  | .Slash => .Division

/-- `Parser::pratt_parser`.  The Rust function is one function
containing the left-operand phase followed by the infix `loop`; the
`lhs?` argument selects the phase: `none` is the entry (left-operand)
phase, `some lhs` is an iteration of the infix loop with accumulated
left operand `lhs`.  On success it returns the parsed expression
together with the tokens the descent did not consume.  `fuel` makes the
recursion structural; `prattParser_total` proves `tokens.length + 1`
fuel suffices, and `none` (exhaustion) is otherwise propagated. -/
def prattParser : Nat → Option Expression → List Token → Nat →
    Option (Except ParserError (Expression × List Token))
  | 0, _, _, _ => none
  | fuel + 1, none, tokens, minBp =>
    -- Handles tokens that can start an expression.
    match tokens with
    | [] => some (.error (.ExpectedExprStart none))
    | t :: rest =>
      match t.kind with
      | .Number num => prattParser fuel (some (.Atom num)) rest minBp
      | .Operation .Minus =>
        -- Recursive pratt parser call with the prefix binding power.
        match prattParser fuel none rest (prefixBindingPower .Negation) with
        | none => none
        | some (.error e) => some (.error e)
        | some (.ok (rhs, rem)) =>
          prattParser fuel (some (.Unary .Negation rhs)) rem minBp
      | .OpenParenthesis =>
        -- Recursive pratt parser call, then consume the closing parenthesis.
        match prattParser fuel none rest 0 with
        | none => none
        | some (.error e) => some (.error e)
        | some (.ok (lhs, rem)) =>
          match rem with
          | [] => some (.error (.UnclosedParenthesis none))
          | closing :: rem2 =>
            match closing.kind with
            | .CloseParenthesis => prattParser fuel (some lhs) rem2 minBp
            | _ => some (.error (.UnclosedParenthesis (some closing.span)))
      | _ => some (.error (.ExpectedExprStart (some t.span)))
  | fuel + 1, some lhs, tokens, minBp =>
    -- The infix loop: peek the next token.
    match tokens with
    | [] => some (.ok (lhs, []))
    | t :: rest =>
      match t.kind with
      | .CloseParenthesis => some (.ok (lhs, t :: rest))
      | .Operation opk =>
        let op := toBinaryOperation opk
        if (infixBindingPower op).1 < minBp then some (.ok (lhs, t :: rest))
        else
          -- Consume the operation token and parse the right operand.
          match prattParser fuel none rest (infixBindingPower op).2 with
          | none => none
          | some (.error e) => some (.error e)
          | some (.ok (rhs, rem)) =>
            prattParser fuel (some (.Binary op lhs rhs)) rem minBp
      | _ => some (.error (.ExpectedBinaryOp (some t.span)))

/-- The top-level dispatch of `Parser::parse`, over the already
tokenized stream (the source peeks the first token). -/
def parseTokens (tokens : List Token) : Option (Except ParserError ParseTree) :=
  match tokens with
  | [] => some (.ok .Empty)
  | t :: _ =>
    match t.kind with
    | .Special .Quit => some (.ok .Quit)
    | .Special .Unrecognized => some (.error (.UnrecognizedSpecial (some t.span)))
    | _ =>
      match prattParser (tokens.length + 1) none tokens 0 with
      | none => none
      | some (.error e) => some (.error e)
      | some (.ok (expr, _)) => some (.ok (.Expression expr))

/-- `Parser::new(input).parse()`: tokenize, then parse. -/
def parse (input : List Char) : Option (Except ParserError ParseTree) :=
  parseTokens (tokenize input)

/-! ## Evaluator (`src/runtime.rs`) -/

/-- `evaluate`: recursively evaluates an expression. -/
def evaluate : Expression → ℚ
  | .Binary operation lhs rhs =>
    match operation with
    | .Addition => evaluate lhs + evaluate rhs
    | .Subtraction => evaluate lhs - evaluate rhs
    | .Multiplication => evaluate lhs * evaluate rhs
    | .Division => evaluate lhs / evaluate rhs
  | .Unary .Negation operand => -evaluate operand
  | .Atom num => num

/-! ## Error formatter (`src/main.rs`)

The terminal colour codes, the `error: ` prefix and the fixed six-space
indent of the echo lines are presentation detail and are not modelled;
the explanation text, the chosen span, and the character counts that
set the underline padding and width are modelled exactly. -/

/-- The span carried by a parser error. -/
def errSpan : ParserError → Option Span
  | .UnrecognizedSpecial span => span
  | .ExpectedBinaryOp span => span
  | .ExpectedExprStart span => span
  | .UnclosedParenthesis span => span

/-- The per-variant message head of `format_error`, up to and including
the opening backtick before the found text. -/
def errMsgHead : ParserError → List Char
  | .UnrecognizedSpecial _ => ("expected `?quit`, found `".toList)
  | .ExpectedBinaryOp _ => ("expected one of `+`, `-`, `*`, `/`, found `".toList)
  | .ExpectedExprStart _ => ("expected one of `-`, `(`, or a number, found `".toList)
  | .UnclosedParenthesis _ => ("expected `)`, found `".toList)

/-- `spanned_value`: the text the span points to, or the `<EOL>`
placeholder when the span is absent.  `none` models the slicing panic. -/
def spannedValue (input : List Char) (span : Option Span) : Option (List Char) :=
  match span with
  | some sp => sliceBytes input sp.start sp.endPos
  | none => some ("<EOL>".toList)

/-- `unwrap_span`: the carried span, or a synthesized span of the last
byte of the input.  `none` models the `usize` underflow panic of
`input.len() - 1` on empty input. -/
def unwrapSpan (input : List Char) (span : Option Span) : Option Span :=
  match span with
  | some sp => some sp
  | none =>
    if byteLen input = 0 then none
    else some { start := byteLen input - 1, endPos := byteLen input }

/-- The observable content of a formatted error: the explanation line
text, the underlined span, the leading padding (in characters) of the
underline, and the underline width (in characters). -/
structure ErrorDisplay where
  explanation : List Char
  span : Span
  padding : Nat
  underline : Nat
deriving DecidableEq, Repr

/-- `format_error`: builds the explanation from the message head and
the found text, resolves the span, and counts characters before and
inside the span for the underline.  `none` models a slicing panic. -/
def formatError (error : ParserError) (input : List Char) : Option ErrorDisplay :=
  match spannedValue input (errSpan error), unwrapSpan input (errSpan error) with
  | some found, some span =>
    match sliceBytes input 0 span.start, sliceBytes input span.start span.endPos with
    | some before, some spanned =>
      some { explanation := errMsgHead error ++ found ++ ("`".toList)
             span := span
             padding := before.length
             underline := spanned.length }
    | _, _ => none
  | _, _ => none

/-! ## Specification predicates -/

/-- A span is a well-formed byte range of `input`: its start and end
are the byte lengths of prefixes of `input` (hence both are valid
character-boundary byte offsets), with the end extending the start by
the bytes of the spanned characters `mid`. -/
def SpanWithin (input : List Char) (s : Span) : Prop :=
  ∃ pre mid post, input = pre ++ mid ++ post ∧ s.start = byteLen pre ∧
    s.endPos = byteLen pre + byteLen mid

/-! ## Helper lemmas: byte lengths and byte slicing -/

theorem byteLen_append (l₁ l₂ : List Char) :
    byteLen (l₁ ++ l₂) = byteLen l₁ + byteLen l₂ := by
  induction l₁ with
  | nil => simp [byteLen]
  | cons c l₁ ih => simp [byteLen, ih]; omega

theorem byteLen_cons_pos (c : Char) (l : List Char) : 0 < byteLen (c :: l) := by
  have := Char.utf8Size_pos c
  simp [byteLen]; omega

theorem length_dropWhile_le (p : Char → Bool) (l : List Char) :
    (l.dropWhile p).length ≤ l.length := by
  conv_rhs => rw [← List.takeWhile_append_dropWhile p l]
  rw [List.length_append]
  omega

theorem dropBytes_zero (l : List Char) : dropBytes l 0 = some l := by
  rw [dropBytes.eq_def]; simp

theorem dropBytes_append (l₁ l₂ : List Char) :
    dropBytes (l₁ ++ l₂) (byteLen l₁) = some l₂ := by
  induction l₁ with
  | nil => rw [List.nil_append]; exact dropBytes_zero l₂
  | cons c l₁ ih =>
    have hpos := Char.utf8Size_pos c
    have hne : byteLen (c :: l₁) ≠ 0 := by simp [byteLen]; omega
    rw [List.cons_append, dropBytes.eq_def, if_neg hne]
    simp only [byteLen]
    rw [if_pos (by omega), Nat.add_sub_cancel_left]
    exact ih

theorem takeBytes_zero (l : List Char) : takeBytes l 0 = some [] := by
  rw [takeBytes.eq_def]; simp

theorem takeBytes_append (l₁ l₂ : List Char) :
    takeBytes (l₁ ++ l₂) (byteLen l₁) = some l₁ := by
  induction l₁ with
  | nil => rw [List.nil_append]; exact takeBytes_zero l₂
  | cons c l₁ ih =>
    have hpos := Char.utf8Size_pos c
    have hne : byteLen (c :: l₁) ≠ 0 := by simp [byteLen]; omega
    rw [List.cons_append, takeBytes.eq_def, if_neg hne]
    simp only [byteLen]
    rw [if_pos (by omega), Nat.add_sub_cancel_left]
    simp [ih]

theorem sliceBytes_of_middle (pre mid post : List Char) :
    sliceBytes (pre ++ mid ++ post) (byteLen pre) (byteLen pre + byteLen mid) =
      some mid := by
  rw [sliceBytes, if_pos (by omega), List.append_assoc, dropBytes_append]
  simp only [Option.bind_some, Nat.add_sub_cancel_left]
  exact takeBytes_append mid post

/-! ## Helper lemmas: takeWhile and dropWhile runs -/

theorem takeWhile_run_append {p : Char → Bool} (l tl : List Char) (d : Char)
    (hl : ∀ x ∈ l, p x = true) (hd : p d = false) :
    (l ++ d :: tl).takeWhile p = l ∧ (l ++ d :: tl).dropWhile p = d :: tl := by
  induction l with
  | nil => simp [List.takeWhile_cons, List.dropWhile_cons, hd]
  | cons c l ih =>
    have hc := hl c (List.mem_cons_self c l)
    have ih' := ih (fun x hx => hl x (List.mem_cons_of_mem c hx))
    simp [List.takeWhile_cons, List.dropWhile_cons, hc, ih'.1, ih'.2]

/-! ## Tokenizer consumption lemmas -/

theorem numberCursor_spec (c : Cursor) :
    c.chars = (numberCursor c).1 ++ (numberCursor c).2.chars ∧
      (numberCursor c).2.bytePos = c.bytePos + byteLen (numberCursor c).1 := by
  simp only [numberCursor, skipWhileCursor]
  split
  next r2 heq =>
    constructor
    · conv_lhs => rw [← List.takeWhile_append_dropWhile Char.isDigit c.chars, heq,
        ← List.takeWhile_append_dropWhile Char.isDigit r2]
      simp
    · simp only [byteLen_append, byteLen]
      omega
  next heq =>
    constructor
    · conv_lhs => rw [← List.takeWhile_append_dropWhile Char.isDigit c.chars]
    · rfl

theorem nextTokenKind_spec (ch : Char) (c1 : Cursor) :
    ∃ consumed, c1.chars = consumed ++ (nextTokenKind ch c1).2.chars ∧
      (nextTokenKind ch c1).2.bytePos = c1.bytePos + byteLen consumed := by
  rcases hnc : numberCursor c1 with ⟨run, c2⟩
  have hns := numberCursor_spec c1
  rw [hnc] at hns
  unfold nextTokenKind
  rw [hnc]
  split_ifs
  · exact ⟨c1.chars.takeWhile isUnicodeWhitespace,
      (List.takeWhile_append_dropWhile _ _).symm, rfl⟩
  · exact ⟨c1.chars.takeWhile isXidContinue,
      (List.takeWhile_append_dropWhile _ _).symm, rfl⟩
  · exact ⟨run, hns.1, hns.2⟩
  all_goals exact ⟨[], by simp, by simp [byteLen]⟩

theorem nextToken_some {c : Cursor} {t : Token} {c' : Cursor}
    (h : nextToken c = some (t, c')) :
    ∃ consumed, consumed ≠ [] ∧ c.chars = consumed ++ c'.chars ∧
      c'.bytePos = c.bytePos + byteLen consumed ∧
      t.span = ⟨c.bytePos, c'.bytePos⟩ := by
  cases hc : c.chars with
  | nil => rw [nextToken, hc] at h; exact absurd h (by simp)
  | cons ch rest =>
    rcases hk : nextTokenKind ch ⟨rest, c.bytePos + ch.utf8Size⟩ with ⟨kind, c2⟩
    rw [nextToken, hc] at h
    simp only [hk] at h
    injection h with h1
    rw [Prod.mk.injEq] at h1
    obtain ⟨rfl, rfl⟩ := h1
    obtain ⟨consumed, hchars, hpos⟩ := nextTokenKind_spec ch ⟨rest, c.bytePos + ch.utf8Size⟩
    rw [hk] at hchars hpos
    dsimp only at hchars hpos
    refine ⟨ch :: consumed, by simp, ?_, ?_, rfl⟩
    · rw [hchars]
      simp
    · rw [hpos]
      simp [byteLen]
      omega

theorem tokenizeFuel_nil (fuel : Nat) (p : Nat) :
    tokenizeFuel fuel ⟨[], p⟩ = [] := by
  cases fuel <;> simp [tokenizeFuel, nextToken]

theorem tokenizeFuel_spanWithin :
    ∀ (fuel : Nat) (c : Cursor) (pre : List Char), byteLen pre = c.bytePos →
      ∀ t ∈ tokenizeFuel fuel c, SpanWithin (pre ++ c.chars) t.span := by
  intro fuel
  induction fuel with
  | zero => intro c pre _ t ht; simp [tokenizeFuel] at ht
  | succ fuel ih =>
    intro c pre hpre t ht
    rw [tokenizeFuel] at ht
    cases hn : nextToken c with
    | none => rw [hn] at ht; simp at ht
    | some tc =>
      rcases tc with ⟨t0, c'⟩
      rw [hn] at ht
      simp only [List.mem_cons] at ht
      obtain ⟨consumed, _, hchars, hpos, hspan⟩ := nextToken_some hn
      rcases ht with rfl | ht
      · refine ⟨pre, consumed, c'.chars, ?_, ?_, ?_⟩
        · rw [hchars, List.append_assoc]
        · rw [hspan, hpre]
        · rw [hspan, hpos, hpre]
      · have hb : byteLen (pre ++ consumed) = c'.bytePos := by
          rw [byteLen_append, hpre, hpos]
        have hs := ih c' (pre ++ consumed) hb t ht
        rwa [List.append_assoc, ← hchars] at hs

theorem tokenize_all_whitespace (input : List Char)
    (h : ∀ ch ∈ input, isUnicodeWhitespace ch = true) : tokenize input = [] := by
  cases input with
  | nil => rfl
  | cons ch rest =>
    have hch : isUnicodeWhitespace ch = true := h ch (List.mem_cons_self ch rest)
    have hdrop : rest.dropWhile isUnicodeWhitespace = [] :=
      List.dropWhile_eq_nil_iff.mpr (fun x hx => h x (List.mem_cons_of_mem ch hx))
    simp only [tokenize, List.length_cons, tokenizeFuel, nextToken, nextTokenKind, hch,
      if_true, skipWhileCursor, hdrop, tokenizeFuel_nil]
    simp [List.filter]

/-! ## Parser lemmas

The recursion of `prattParser` consumes tokens: on success the
remaining stream is no longer than the input stream, and strictly
shorter for the left-operand phase (which always consumes at least the
first token of the expression). -/

theorem prattParser_length :
    ∀ (fuel : Nat) (lhs? : Option Expression) (tokens : List Token) (minBp : Nat)
      (e : Expression) (rem : List Token),
      prattParser fuel lhs? tokens minBp = some (.ok (e, rem)) →
      rem.length ≤ tokens.length ∧ (lhs? = none → rem.length < tokens.length) := by
  intro fuel
  induction fuel with
  | zero => intro lhs? tokens minBp e rem h; simp [prattParser] at h
  | succ fuel ih =>
    intro lhs? tokens minBp e rem h
    cases lhs? with
    | none =>
      cases tokens with
      | nil => simp [prattParser] at h
      | cons t rest =>
        rw [prattParser] at h
        cases hk : t.kind <;> simp only [hk] at h
        case Number num =>
          have h1 := (ih _ _ _ _ _ h).1
          refine ⟨?_, fun _ => ?_⟩ <;> simp only [List.length_cons] <;> omega
        case Operation opk =>
          cases opk <;> dsimp only at h
          case Minus =>
            cases hin : prattParser fuel none rest (prefixBindingPower .Negation) with
            | none => rw [hin] at h; simp at h
            | some res =>
              rw [hin] at h
              cases res with
              | error err => simp at h
              | ok pr =>
                rcases pr with ⟨rhs, rem1⟩
                have h1 := (ih _ _ _ _ _ hin).2 rfl
                have h2 := (ih _ _ _ _ _ h).1
                refine ⟨?_, fun _ => ?_⟩ <;> simp only [List.length_cons] <;> omega
          all_goals simp at h
        case OpenParenthesis =>
          cases hin : prattParser fuel none rest 0 with
          | none => rw [hin] at h; simp at h
          | some res =>
            rw [hin] at h
            cases res with
            | error err => simp at h
            | ok pr =>
              rcases pr with ⟨lhs, rem1⟩
              have h1 := (ih _ _ _ _ _ hin).2 rfl
              cases rem1 with
              | nil => simp at h
              | cons closing rem2 =>
                cases hck : closing.kind <;> simp only [hck] at h
                case CloseParenthesis =>
                  have h2 := (ih _ _ _ _ _ h).1
                  refine ⟨?_, fun _ => ?_⟩ <;>
                    simp only [List.length_cons] at h1 ⊢ <;> omega
                all_goals simp at h
        all_goals simp at h
    | some lhs =>
      cases tokens with
      | nil =>
        simp only [prattParser, Option.some.injEq, Except.ok.injEq, Prod.mk.injEq] at h
        obtain ⟨-, rfl⟩ := h
        exact ⟨Nat.le_refl _, fun hc => absurd hc (by simp)⟩
      | cons t rest =>
        rw [prattParser] at h
        cases hk : t.kind <;> simp only [hk] at h
        case CloseParenthesis =>
          simp only [Option.some.injEq, Except.ok.injEq, Prod.mk.injEq] at h
          obtain ⟨-, rfl⟩ := h
          exact ⟨Nat.le_refl _, fun hc => absurd hc (by simp)⟩
        case Operation opk =>
          by_cases hbp : (infixBindingPower (toBinaryOperation opk)).1 < minBp
          · simp only [if_pos hbp, Option.some.injEq, Except.ok.injEq, Prod.mk.injEq] at h
            obtain ⟨-, rfl⟩ := h
            exact ⟨Nat.le_refl _, fun hc => absurd hc (by simp)⟩
          · simp only [if_neg hbp] at h
            cases hin : prattParser fuel none rest
                (infixBindingPower (toBinaryOperation opk)).2 with
            | none => rw [hin] at h; simp at h
            | some res =>
              rw [hin] at h
              cases res with
              | error err => simp at h
              | ok pr =>
                rcases pr with ⟨rhs, rem1⟩
                have h1 := (ih _ _ _ _ _ hin).2 rfl
                have h2 := (ih _ _ _ _ _ h).1
                refine ⟨?_, fun hc => absurd hc (by simp)⟩
                simp only [List.length_cons]
                omega
        all_goals simp at h

theorem prattParser_total :
    ∀ (fuel : Nat) (lhs? : Option Expression) (tokens : List Token) (minBp : Nat),
      tokens.length < fuel → prattParser fuel lhs? tokens minBp ≠ none := by
  intro fuel
  induction fuel with
  | zero => intro lhs? tokens minBp hlt; omega
  | succ fuel ih =>
    intro lhs? tokens minBp hlt
    cases lhs? with
    | none =>
      cases tokens with
      | nil => simp [prattParser]
      | cons t rest =>
        simp only [List.length_cons] at hlt
        rw [prattParser]
        cases hk : t.kind <;> try simp only [hk]
        case Number num => exact ih _ _ _ (by omega)
        case Operation opk =>
          cases opk <;> dsimp only
          case Minus =>
            cases hin : prattParser fuel none rest (prefixBindingPower .Negation) with
            | none => exact absurd hin (ih _ _ _ (by omega))
            | some res =>
              cases res with
              | error err => simp
              | ok pr =>
                rcases pr with ⟨rhs, rem1⟩
                have h1 := (prattParser_length _ _ _ _ _ _ hin).2 rfl
                exact ih _ _ _ (by omega)
          all_goals simp
        case OpenParenthesis =>
          cases hin : prattParser fuel none rest 0 with
          | none => exact absurd hin (ih _ _ _ (by omega))
          | some res =>
            cases res with
            | error err => simp
            | ok pr =>
              rcases pr with ⟨lhs, rem1⟩
              have h1 := (prattParser_length _ _ _ _ _ _ hin).2 rfl
              cases rem1 with
              | nil => simp
              | cons closing rem2 =>
                simp only [List.length_cons] at h1
                cases hck : closing.kind <;> simp only [hck]
                case CloseParenthesis => exact ih _ _ _ (by omega)
                all_goals simp
        all_goals simp
    | some lhs =>
      cases tokens with
      | nil => simp [prattParser]
      | cons t rest =>
        simp only [List.length_cons] at hlt
        rw [prattParser]
        cases hk : t.kind <;> dsimp only
        case Operation opk =>
          by_cases hbp : (infixBindingPower (toBinaryOperation opk)).1 < minBp
          · rw [if_pos hbp]; simp
          · rw [if_neg hbp]
            cases hin : prattParser fuel none rest
                (infixBindingPower (toBinaryOperation opk)).2 with
            | none => exact absurd hin (ih _ _ _ (by omega))
            | some res =>
              cases res with
              | error err => simp
              | ok pr =>
                rcases pr with ⟨rhs, rem1⟩
                have h1 := (prattParser_length _ _ _ _ _ _ hin).2 rfl
                exact ih _ _ _ (by omega)
        all_goals simp

theorem prattParser_rem_top :
    ∀ (fuel : Nat) (lhs? : Option Expression) (tokens : List Token)
      (e : Expression) (rem : List Token),
      prattParser fuel lhs? tokens 0 = some (.ok (e, rem)) →
      rem = [] ∨ ∃ t rest, rem = t :: rest ∧ t.kind = TokenKind.CloseParenthesis := by
  intro fuel
  induction fuel with
  | zero => intro lhs? tokens e rem h; simp [prattParser] at h
  | succ fuel ih =>
    intro lhs? tokens e rem h
    cases lhs? with
    | none =>
      cases tokens with
      | nil => simp [prattParser] at h
      | cons t rest =>
        rw [prattParser] at h
        cases hk : t.kind <;> simp only [hk] at h
        case Number num => exact ih _ _ _ _ h
        case Operation opk =>
          cases opk <;> dsimp only at h
          case Minus =>
            cases hin : prattParser fuel none rest (prefixBindingPower .Negation) with
            | none => rw [hin] at h; simp at h
            | some res =>
              rw [hin] at h
              cases res with
              | error err => simp at h
              | ok pr =>
                rcases pr with ⟨rhs, rem1⟩
                exact ih _ _ _ _ h
          all_goals simp at h
        case OpenParenthesis =>
          cases hin : prattParser fuel none rest 0 with
          | none => rw [hin] at h; simp at h
          | some res =>
            rw [hin] at h
            cases res with
            | error err => simp at h
            | ok pr =>
              rcases pr with ⟨lhs, rem1⟩
              cases rem1 with
              | nil => simp at h
              | cons closing rem2 =>
                cases hck : closing.kind <;> simp only [hck] at h
                case CloseParenthesis => exact ih _ _ _ _ h
                all_goals simp at h
        all_goals simp at h
    | some lhs =>
      cases tokens with
      | nil =>
        simp only [prattParser, Option.some.injEq, Except.ok.injEq, Prod.mk.injEq] at h
        obtain ⟨-, rfl⟩ := h
        exact Or.inl rfl
      | cons t rest =>
        rw [prattParser] at h
        cases hk : t.kind <;> simp only [hk] at h
        case CloseParenthesis =>
          simp only [Option.some.injEq, Except.ok.injEq, Prod.mk.injEq] at h
          obtain ⟨-, rfl⟩ := h
          exact Or.inr ⟨t, rest, rfl, hk⟩
        case Operation opk =>
          rw [if_neg (Nat.not_lt_zero _)] at h
          cases hin : prattParser fuel none rest
              (infixBindingPower (toBinaryOperation opk)).2 with
          | none => rw [hin] at h; simp at h
          | some res =>
            rw [hin] at h
            cases res with
            | error err => simp at h
            | ok pr =>
              rcases pr with ⟨rhs, rem1⟩
              exact ih _ _ _ _ h
        all_goals simp at h

theorem prattParser_unclosed :
    ∀ (fuel : Nat) (lhs? : Option Expression) (tokens : List Token) (minBp : Nat)
      (sp : Option Span),
      prattParser fuel lhs? tokens minBp = some (.error (.UnclosedParenthesis sp)) →
      sp = none := by
  intro fuel
  induction fuel with
  | zero => intro lhs? tokens minBp sp h; simp [prattParser] at h
  | succ fuel ih =>
    intro lhs? tokens minBp sp h
    cases lhs? with
    | none =>
      cases tokens with
      | nil => simp [prattParser] at h
      | cons t rest =>
        rw [prattParser] at h
        cases hk : t.kind <;> simp only [hk] at h
        case Number num => exact ih _ _ _ _ h
        case Operation opk =>
          cases opk <;> dsimp only at h
          case Minus =>
            cases hin : prattParser fuel none rest (prefixBindingPower .Negation) with
            | none => rw [hin] at h; simp at h
            | some res =>
              rw [hin] at h
              cases res with
              | error err =>
                simp only [Option.some.injEq, Except.error.injEq] at h
                subst h
                exact ih _ _ _ _ hin
              | ok pr =>
                rcases pr with ⟨rhs, rem1⟩
                exact ih _ _ _ _ h
          all_goals simp at h
        case OpenParenthesis =>
          cases hin : prattParser fuel none rest 0 with
          | none => rw [hin] at h; simp at h
          | some res =>
            rw [hin] at h
            cases res with
            | error err =>
              simp only [Option.some.injEq, Except.error.injEq] at h
              subst h
              exact ih _ _ _ _ hin
            | ok pr =>
              rcases pr with ⟨lhs, rem1⟩
              cases rem1 with
              | nil =>
                simp only [Option.some.injEq, Except.error.injEq,
                  ParserError.UnclosedParenthesis.injEq] at h
                exact h.symm
              | cons closing rem2 =>
                cases hck : closing.kind <;> simp only [hck] at h
                case CloseParenthesis => exact ih _ _ _ _ h
                all_goals {
                  rcases prattParser_rem_top _ _ _ _ _ hin with h0 | ⟨t', rest', heq, hkind⟩
                  · exact absurd h0 (by simp)
                  · obtain ⟨h5, -⟩ := List.cons.inj heq
                    rw [← h5, hck] at hkind
                    simp at hkind
                }
        all_goals simp at h
    | some lhs =>
      cases tokens with
      | nil => simp [prattParser] at h
      | cons t rest =>
        rw [prattParser] at h
        cases hk : t.kind <;> simp only [hk] at h
        case Operation opk =>
          by_cases hbp : (infixBindingPower (toBinaryOperation opk)).1 < minBp
          · rw [if_pos hbp] at h; simp at h
          · rw [if_neg hbp] at h
            cases hin : prattParser fuel none rest
                (infixBindingPower (toBinaryOperation opk)).2 with
            | none => rw [hin] at h; simp at h
            | some res =>
              rw [hin] at h
              cases res with
              | error err =>
                simp only [Option.some.injEq, Except.error.injEq] at h
                subst h
                exact ih _ _ _ _ hin
              | ok pr =>
                rcases pr with ⟨rhs, rem1⟩
                exact ih _ _ _ _ h
        all_goals simp at h

/-! ## Claim theorems -/

/-- C2 (amended): for a parser error carrying no span, on a non-empty
line whose final character occupies a single UTF-8 byte, the formatter
substitutes the `<EOL>` placeholder as the found text, underlines the
synthesized span `[len-1, len)`, pads by the character count before the
span (all characters but the last) and underlines one character. -/
theorem C2_eol_display (error : ParserError) (input : List Char)
    (hsp : errSpan error = none)
    (hlast : ∃ pre c, input = pre ++ [c] ∧ c.utf8Size = 1) :
    formatError error input =
      some { explanation := errMsgHead error ++ ("<EOL>`".toList)
             span := { start := byteLen input - 1, endPos := byteLen input }
             padding := input.length - 1
             underline := 1 } := by
  obtain ⟨pre, c, rfl, hc1⟩ := hlast
  have hBL : byteLen (pre ++ [c]) = byteLen pre + 1 := by
    rw [byteLen_append]; simp [byteLen, hc1]
  have hne : ¬byteLen (pre ++ [c]) = 0 := by omega
  have h1 : sliceBytes (pre ++ [c]) 0 (byteLen (pre ++ [c]) - 1) = some pre := by
    rw [hBL, Nat.add_sub_cancel]
    have h0 := sliceBytes_of_middle [] pre [c]
    simpa [byteLen] using h0
  have h2 : sliceBytes (pre ++ [c]) (byteLen (pre ++ [c]) - 1) (byteLen (pre ++ [c])) =
      some [c] := by
    have h0 := sliceBytes_of_middle pre [c] []
    rw [List.append_nil] at h0
    rw [hBL, Nat.add_sub_cancel]
    have hb1 : byteLen [c] = 1 := by simp [byteLen, hc1]
    rw [hb1] at h0
    exact h0
  rw [formatError, hsp]
  simp only [spannedValue, unwrapSpan, if_neg hne, h1, h2]
  simp [List.length_append]

theorem C2_eol_display_witness :
    (errSpan (.ExpectedExprStart none) = none) ∧
    formatError (.ExpectedExprStart none) ("1+".toList) =
      some { explanation := errMsgHead (.ExpectedExprStart none) ++ ("<EOL>`".toList)
             span := { start := byteLen ("1+".toList) - 1, endPos := byteLen ("1+".toList) }
             padding := ("1+".toList).length - 1
             underline := 1 } :=
  ⟨rfl, C2_eol_display (.ExpectedExprStart none) ("1+".toList) rfl
    ⟨['1'], '+', by decide, by decide⟩⟩

/-- C2 (counterexample): the line `"(\u00A0"` (open parenthesis followed
by a no-break space, whose UTF-8 encoding is two bytes) produces a
parser error with an absent span, and on it the formatter's synthesized
byte range `[len-1, len)` cuts the final character in half: the
`<EOL>` explanation, padding and underline the claim describes are
never produced (the character-boundary slicing panics, modelled by
`none`). -/
theorem C2_counterexample :
    parse ("(\u00A0".toList) = some (.error (.ExpectedExprStart none)) ∧
    formatError (.ExpectedExprStart none) ("(\u00A0".toList) = none := by
  constructor <;> decide

/-- C1 (amended): when the precedence-climbing descent started at
binding power 0 succeeds, the unconsumed remainder of the token stream
is either empty or begins with a close-parenthesis token (which, at top
level, is silently left unconsumed together with everything after it). -/
theorem C1_success_leftover (fuel : Nat) (tokens : List Token)
    (e : Expression) (rem : List Token)
    (h : prattParser fuel none tokens 0 = some (.ok (e, rem))) :
    rem = [] ∨ ∃ t rest, rem = t :: rest ∧ t.kind = TokenKind.CloseParenthesis :=
  prattParser_rem_top fuel none tokens e rem h

theorem C1_success_leftover_witness :
    prattParser 3 none (tokenize ("1)".toList)) 0 =
      some (.ok (.Atom 1, [⟨.CloseParenthesis, ⟨1, 2⟩⟩])) ∧
    ([(⟨.CloseParenthesis, ⟨1, 2⟩⟩ : Token)] = [] ∨
      ∃ t rest, [(⟨.CloseParenthesis, ⟨1, 2⟩⟩ : Token)] = t :: rest ∧
        t.kind = TokenKind.CloseParenthesis) :=
  ⟨by decide, C1_success_leftover 3 (tokenize ("1)".toList)) (.Atom 1)
    [⟨.CloseParenthesis, ⟨1, 2⟩⟩] (by decide)⟩

/-- C1 (counterexample): the input `"1)2"` parses successfully to the
expression `Atom 1` although the descent leaves the stray `)` and the
following `2` unconsumed, refuting the claim that a successful
top-level parse always consumes the whole token stream. -/
theorem C1_counterexample :
    parse ("1)2".toList) = some (.ok (.Expression (.Atom 1))) ∧
    prattParser ((tokenize ("1)2".toList)).length + 1) none (tokenize ("1)2".toList)) 0 =
      some (.ok (.Atom 1, [⟨.CloseParenthesis, ⟨1, 2⟩⟩, ⟨.Number 2, ⟨2, 3⟩⟩])) := by
  constructor <;> decide

/-- C9: whenever `parse` fails with `UnclosedParenthesis`, the carried
span is absent: after the parenthesized sub-expression parse succeeds,
the next token can only be end of input or a close parenthesis, so the
error can only arise at end of input. -/
theorem C9_unclosed_span_none (input : List Char) (sp : Option Span)
    (h : parse input = some (.error (.UnclosedParenthesis sp))) : sp = none := by
  rw [parse] at h
  cases htok : tokenize input with
  | nil => rw [htok] at h; simp [parseTokens] at h
  | cons t rest =>
    rw [htok, parseTokens] at h
    cases hk : t.kind <;> simp only [hk] at h
    case Special k => cases k <;> simp at h
    all_goals {
      cases hp : prattParser ((t :: rest).length + 1) none (t :: rest) 0 with
      | none => rw [hp] at h; simp at h
      | some res =>
        rw [hp] at h
        cases res with
        | error err =>
          simp only [Option.some.injEq, Except.error.injEq] at h
          subst h
          exact prattParser_unclosed _ _ _ _ _ hp
        | ok pr => rcases pr with ⟨e0, rem0⟩; simp at h
    }

theorem C9_unclosed_span_none_witness :
    parse ("(1+2".toList) = some (.error (.UnclosedParenthesis none)) ∧
      (none : Option Span) = none :=
  ⟨by decide, C9_unclosed_span_none ("(1+2".toList) none (by decide)⟩

/-- C10: the substring matched by the number rule (the consumed leading
digit followed by the run `Tokenizer::number` consumes) is always valid
64-bit-float syntax, so the `unwrap` of the parse in `next_token` never
panics. -/
theorem C10_number_parse_total (ch : Char) (rest : List Char) (pos : Nat)
    (h : ch.isDigit = true) :
    (rustParseF64 (ch :: (numberCursor ⟨rest, pos⟩).1)).isSome = true := by
  have hds : ∀ x ∈ rest.takeWhile Char.isDigit, Char.isDigit x = true :=
    fun x hx => List.mem_takeWhile_imp hx
  have hall : ∀ x ∈ ch :: rest.takeWhile Char.isDigit, Char.isDigit x = true := by
    intro x hx
    rcases List.mem_cons.mp hx with rfl | hx
    · exact h
    · exact hds x hx
  simp only [numberCursor, skipWhileCursor]
  split
  next r2 heq =>
    dsimp only
    have hfs : ∀ x ∈ r2.takeWhile Char.isDigit, Char.isDigit x = true :=
      fun x hx => List.mem_takeWhile_imp hx
    have hdot : Char.isDigit '.' = false := by decide
    have hsplit := takeWhile_run_append (ch :: rest.takeWhile Char.isDigit)
      (r2.takeWhile Char.isDigit) '.' hall hdot
    rw [← List.cons_append, rustParseF64]
    rw [hsplit.1, hsplit.2]
    simp only [List.takeWhile_eq_self_iff.mpr hfs, List.dropWhile_eq_nil_iff.mpr hfs]
    simp [List.isEmpty]
  next heq =>
    dsimp only
    rw [rustParseF64]
    rw [List.takeWhile_eq_self_iff.mpr hall, List.dropWhile_eq_nil_iff.mpr hall]
    simp [List.isEmpty]

theorem C10_number_parse_total_witness :
    ('5'.isDigit = true) ∧
    (rustParseF64 ('5' :: (numberCursor ⟨(".25x".toList), 1⟩).1)).isSome = true :=
  ⟨by decide, C10_number_parse_total '5' (".25x".toList) 1 (by decide)⟩

/-- C3: `"1+2*3"` parses with multiplication bound tighter than
addition and evaluates to `7`, not `9`; `"(1+2)*3"` groups the sum
first and evaluates to `9`. -/
theorem C3_precedence :
    parse ("1+2*3".toList) = some (.ok (.Expression
      (.Binary .Addition (.Atom 1) (.Binary .Multiplication (.Atom 2) (.Atom 3))))) ∧
    evaluate (.Binary .Addition (.Atom 1)
      (.Binary .Multiplication (.Atom 2) (.Atom 3))) = 7 ∧
    parse ("(1+2)*3".toList) = some (.ok (.Expression
      (.Binary .Multiplication (.Binary .Addition (.Atom 1) (.Atom 2)) (.Atom 3)))) ∧
    evaluate (.Binary .Multiplication
      (.Binary .Addition (.Atom 1) (.Atom 2)) (.Atom 3)) = 9 := by
  refine ⟨by decide, ?_, by decide, ?_⟩ <;> norm_num [evaluate]

/-- C4: `"8/4/2"` parses left-associated, `(8/4)/2`, and evaluates to
`1`, not the right-associated value `4`. -/
theorem C4_associativity :
    parse ("8/4/2".toList) = some (.ok (.Expression
      (.Binary .Division (.Binary .Division (.Atom 8) (.Atom 4)) (.Atom 2)))) ∧
    evaluate (.Binary .Division
      (.Binary .Division (.Atom 8) (.Atom 4)) (.Atom 2)) = 1 ∧
    evaluate (.Binary .Division
      (.Atom 8) (.Binary .Division (.Atom 4) (.Atom 2))) = 4 := by
  refine ⟨by decide, ?_, ?_⟩ <;> norm_num [evaluate]

/-- C5: unary minus binds tighter than every infix operator: `"-2*3"`
parses as `(-2)*3` and evaluates to `-6`, and `"-(2+3)"` evaluates to
`-5`. -/
theorem C5_unary_binding :
    parse ("-2*3".toList) = some (.ok (.Expression
      (.Binary .Multiplication (.Unary .Negation (.Atom 2)) (.Atom 3)))) ∧
    evaluate (.Binary .Multiplication (.Unary .Negation (.Atom 2)) (.Atom 3)) = -6 ∧
    parse ("-(2+3)".toList) = some (.ok (.Expression
      (.Unary .Negation (.Binary .Addition (.Atom 2) (.Atom 3))))) ∧
    evaluate (.Unary .Negation (.Binary .Addition (.Atom 2) (.Atom 3))) = -5 := by
  refine ⟨by decide, ?_, by decide, ?_⟩ <;> norm_num [evaluate]

/-- C6: top-level dispatch depends only on the first token: an input of
Unicode whitespace only (or empty) yields `Empty` (no non-whitespace
token is emitted), and any input whose first token is `Special Quit`
yields `Quit` regardless of the trailing tokens. -/
theorem C6_first_token_dispatch (input : List Char) :
    ((∀ ch ∈ input, isUnicodeWhitespace ch = true) → parse input = some (.ok .Empty)) ∧
    (∀ t rest, tokenize input = t :: rest → t.kind = TokenKind.Special .Quit →
      parse input = some (.ok .Quit)) := by
  constructor
  · intro h
    rw [parse, tokenize_all_whitespace input h]
    rfl
  · intro t rest ht hk
    rw [parse, ht]
    simp [parseTokens, hk]

theorem C6_first_token_dispatch_witness :
    parse (" \t\r\n".toList) = some (.ok .Empty) ∧
    parse ("?quit )".toList) = some (.ok .Quit) :=
  ⟨(C6_first_token_dispatch (" \t\r\n".toList)).1 (by decide),
   (C6_first_token_dispatch ("?quit )".toList)).2 ⟨.Special .Quit, ⟨0, 5⟩⟩
     [⟨.CloseParenthesis, ⟨6, 7⟩⟩] (by decide) rfl⟩

/-- C7: number tokenization of `"123"`, `"123."` and `"123.123"` yields
the single tokens `Number 123`, `Number 123` and `Number 123.123`
(exactly `123123/1000`), each spanning the full matched text. -/
theorem C7_number_tokens :
    tokenize ("123".toList) = [⟨.Number 123, ⟨0, 3⟩⟩] ∧
    tokenize ("123.".toList) = [⟨.Number 123, ⟨0, 4⟩⟩] ∧
    tokenize ("123.123".toList) = [⟨.Number (123123 / 1000), ⟨0, 7⟩⟩] := by
  refine ⟨by decide, ?_, ?_⟩
  · have h : tokenize ("123.".toList) = [⟨.Number (mkRat 123 1), ⟨0, 4⟩⟩] := by decide
    rw [h]
    norm_num [Rat.mkRat_eq_div]
  · have h : tokenize ("123.123".toList) =
        [⟨.Number (mkRat 123123 1000), ⟨0, 7⟩⟩] := by decide
    rw [h]
    norm_num [Rat.mkRat_eq_div]

/-- C8: every token the tokenizer produces has a span `[start, end)`
with `start ≤ end ≤ len(input)` measured in UTF-8 bytes, and both ends
are byte lengths of character prefixes of the input, so the span is a
valid character-boundary byte range, including for multi-byte text. -/
theorem C8_span_valid (input : List Char) (t : Token) (ht : t ∈ tokenize input) :
    t.span.start ≤ t.span.endPos ∧ t.span.endPos ≤ byteLen input ∧
      SpanWithin input t.span := by
  have ht' : t ∈ tokenizeFuel (input.length + 1) ⟨input, 0⟩ :=
    (List.mem_filter.mp ht).1
  have hs := tokenizeFuel_spanWithin (input.length + 1) ⟨input, 0⟩ [] rfl t ht'
  simp only [List.nil_append] at hs
  obtain ⟨pre, mid, post, hin, hstart, hend⟩ := hs
  refine ⟨by omega, ?_, ⟨pre, mid, post, hin, hstart, hend⟩⟩
  rw [hin, byteLen_append, byteLen_append]
  omega

theorem C8_span_valid_witness :
    ((⟨.Operation .Plus, ⟨2, 3⟩⟩ : Token) ∈ tokenize ("é+2".toList)) ∧
    ((⟨.Operation .Plus, ⟨2, 3⟩⟩ : Token).span.start ≤
        (⟨.Operation .Plus, ⟨2, 3⟩⟩ : Token).span.endPos ∧
      (⟨.Operation .Plus, ⟨2, 3⟩⟩ : Token).span.endPos ≤ byteLen ("é+2".toList) ∧
      SpanWithin ("é+2".toList) (⟨.Operation .Plus, ⟨2, 3⟩⟩ : Token).span) :=
  ⟨by decide, C8_span_valid ("é+2".toList) ⟨.Operation .Plus, ⟨2, 3⟩⟩ (by decide)⟩

end ArithInterp
